import Mathlib

/-!
Shallow embedding of the BombParty game state machine from
`helper_objects.py` (classes `BombPartyPlayer` and `BombParty`).

Modelling conventions:
* Python strings (words, user identities, letter fragments) are `List Char`;
  `str.lower()` is a characterwise `Char.toLower` map.
* The Python `dict` `party` (insertion ordered, unique keys) is an
  association list `List (Word × BombPartyPlayer)`; dict mutation of a
  single entry is a keyed map over the list.
* Wall-clock samples (`perf_counter()`) are passed in explicitly as a
  rational `now`; `timer` and `bomb_start_time` are rationals since the
  Python values become floats after the first decay.
* Python exceptions are modelled by `Option`: a `none` result marks a run
  that would raise (missing dict key, out-of-range list index, attribute
  access on `None`).
* The unbounded `while` loop of `next_player` is modelled with explicit
  fuel; exhausting the fuel returns `none`.
* `random.shuffle` is modelled by an explicit `shuffle` parameter on
  `on_start`; the theorems quantify over all permutation-producing sources.
-/

namespace OfflineChatbot

/-- Python strings are modelled as lists of characters. -/
abbrev Word := List Char

/-- Python `str.lower()`, applied characterwise. -/
def lower (w : Word) : Word := w.map Char.toLower

/-- Python substring test `s in t` on strings: `s` occurs contiguously in `t`. -/
def hasSubstr (s : Word) : Word → Bool
  | [] => decide (s = [])
  | c :: rest => decide (List.take s.length (c :: rest) = s) || hasSubstr s rest

/-- Class `BombPartyPlayer`: a participant with an identity and remaining lives.
Lives are a Python `int`, hence modelled as `Int`. -/
structure BombPartyPlayer where
  user : Word
  lives : Int
  deriving DecidableEq

/-- `BombPartyPlayer.dead`: derived property `lives == 0`. -/
def BombPartyPlayer.dead (p : BombPartyPlayer) : Bool := decide (p.lives = 0)

instance : Inhabited BombPartyPlayer := ⟨{ user := [], lives := 0 }⟩

/-- The `bomb_settings` dict: four fixed keys with heterogeneous value types,
modelled as a structure (difficulty is a Python `str`, the rest `int`). -/
structure BombSettings where
  difficulty : String
  timer : Int
  minimum_time : Int
  lives : Int
  deriving DecidableEq

/-- The mutable state of class `BombParty` (the fields its methods touch). -/
structure BombParty where
  in_progress : Bool
  started : Bool
  used_words : List Word
  party : List (Word × BombPartyPlayer)
  current_player_index : Nat
  current_letters : Word
  bomb_start_time : ℚ
  turn_order : List Word
  timer : ℚ
  bomb_settings : BombSettings
  deriving DecidableEq

/-- Python dict lookup `party[u]` on the association list, `none` on a
missing key (a `KeyError` at the call sites). -/
def lookupUser : List (Word × BombPartyPlayer) → Word → Option BombPartyPlayer
  | [], _ => none
  | e :: rest, u => if e.1 = u then some e.2 else lookupUser rest u

/-- `list(party.keys())`. -/
def partyKeys (d : List (Word × BombPartyPlayer)) : List Word := d.map Prod.fst

/-- Dict mutation `party[u].lives = v` for the single entry keyed `u`. -/
def setLivesOf (d : List (Word × BombPartyPlayer)) (u : Word) (v : Int) :
    List (Word × BombPartyPlayer) :=
  d.map fun e => if e.1 = u then (e.1, { e.2 with lives := v }) else e

/-- Dict mutation `party[u].lives -= 1` for the single entry keyed `u`. -/
def decLivesOf (d : List (Word × BombPartyPlayer)) (u : Word) :
    List (Word × BombPartyPlayer) :=
  d.map fun e => if e.1 = u then (e.1, { e.2 with lives := e.2.lives - 1 }) else e

/-- `on_lives_set`'s loop body: every player's lives set to a value. -/
def setAllLives (d : List (Word × BombPartyPlayer)) (v : Int) :
    List (Word × BombPartyPlayer) :=
  d.map fun e => (e.1, { e.2 with lives := v })

/-- Python `del party[u]`. -/
def delUser (d : List (Word × BombPartyPlayer)) (u : Word) :
    List (Word × BombPartyPlayer) :=
  d.filter fun e => decide (¬ e.1 = u)

/-- The `default_settings` property. -/
def default_settings : BombSettings :=
  { difficulty := "medium", timer := 30, minimum_time := 5, lives := 3 }

/-- `set_default_values` (also the state produced by `__init__` and `on_close`). -/
def set_default_values : BombParty :=
  { in_progress := false
    started := false
    used_words := []
    party := []
    current_player_index := 0
    current_letters := []
    bomb_start_time := 0
    turn_order := []
    timer := 30
    bomb_settings := default_settings }

/-- `add_player`: inserts a fresh player with the configured starting lives
unless the identity is already present. Python dict insertion appends. -/
def add_player (st : BombParty) (user : Word) : BombParty :=
  if (lookupUser st.party user).isSome then st
  else { st with party := st.party ++ [(user, { user := user, lives := st.bomb_settings.lives })] }

/-- `remove_player`: before the game starts the entry is deleted outright;
once started the player's lives are set to 0 instead. -/
def remove_player (st : BombParty) (user : Word) : BombParty :=
  if (lookupUser st.party user).isSome then
    if st.started then { st with party := setLivesOf st.party user 0 }
    else { st with party := delUser st.party user }
  else st

/-- `on_in_progress`. -/
def on_in_progress (st : BombParty) : BombParty := { st with in_progress := true }

/-- `on_start`: turn order becomes a shuffle of the party's keys, the round
timer is loaded from the settings, the countdown start time is sampled and
the game is flagged as started. The ambient `random.shuffle` is the
explicit `shuffle` parameter, `perf_counter()` the explicit `now`. -/
def on_start (st : BombParty) (shuffle : List Word → List Word) (now : ℚ) : BombParty :=
  { st with
      turn_order := shuffle (partyKeys st.party)
      timer := (st.bomb_settings.timer : ℚ)
      bomb_start_time := now
      started := true }

/-- `on_word_used`: countdown decay
`timer -= max(0, now - bomb_start_time - minimum_time)` followed by
appending the lowercased message to `used_words`. -/
def on_word_used (st : BombParty) (message : Word) (now : ℚ) : BombParty :=
  { st with
      timer := st.timer - max 0 (now - st.bomb_start_time - (st.bomb_settings.minimum_time : ℚ))
      used_words := st.used_words ++ [lower message] }

/-- `party[turn_order[i]]`: `none` when the index is out of range or the key
is missing (both raise in Python). -/
def playerAt (st : BombParty) (i : Nat) : Option BombPartyPlayer :=
  (st.turn_order[i]?).bind (lookupUser st.party)

/-- The `current_player` property: `None` on an empty turn order, otherwise
`party[turn_order[current_player_index]]`. -/
def current_player (st : BombParty) : Option BombPartyPlayer :=
  if st.turn_order.length = 0 then none
  else playerAt st st.current_player_index

/-- `on_explode`: reload the timer from the settings, unset the countdown
start time, and decrement the current player's lives. `none` models the
exception Python raises when no current player can be resolved. -/
def on_explode (st : BombParty) : Option BombParty :=
  if st.turn_order.length = 0 then none
  else (st.turn_order[st.current_player_index]?).bind fun u =>
    (lookupUser st.party u).map fun _ =>
      { st with
          timer := (st.bomb_settings.timer : ℚ)
          bomb_start_time := 0
          party := decLivesOf st.party u }

/-- The circular index bump from `next_player`'s loop body:
`1 + i if i != len(turn_order) - 1 else 0`. -/
def nextIndex (n i : Nat) : Nat := if i = n - 1 then 0 else i + 1

/-- The `while` loop of `next_player`, with explicit fuel: keep bumping the
index while the player it designates is dead or is the player who held the
turn when the loop began. -/
def next_player_loop (st : BombParty) (orig : Word) : Nat → Nat → Option Nat
  | 0, _ => none
  | fuel + 1, i =>
    match playerAt st i with
    | none => none
    | some p =>
      if p.lives = 0 ∨ p.user = orig then
        next_player_loop st orig fuel (nextIndex st.turn_order.length i)
      else some i

/-- `next_player`: remember the current player's identity, run the skip
loop, then reset the countdown start timestamp. -/
def next_player (st : BombParty) (now : ℚ) (fuel : Nat) : Option BombParty :=
  (current_player st).bind fun p0 =>
    (next_player_loop st p0.user fuel st.current_player_index).map fun j =>
      { st with current_player_index := j, bomb_start_time := now }

/-- `get_winner`: the single player with nonzero lives, if exactly one. -/
def get_winner (st : BombParty) : Option BombPartyPlayer :=
  let players_left := (st.party.map Prod.snd).filter fun p => decide (¬ p.lives = 0)
  if players_left.length = 1 then players_left.head? else none

/-- The `can_start` property: `len(party) >= 2`. -/
def can_start (st : BombParty) : Bool := decide (2 ≤ st.party.length)

/-- Failure text for an unrecognized setting name (`\x27` is an apostrophe). -/
def msgInvalidSetting : String :=
  "That\x27s not a valid setting. Valid settings: difficulty, timer, minimum_time, lives"

/-- Failure text for a value outside a setting's valid domain. -/
def msgInvalidValue : String := "That\x27s not a valid value for this setting."

/-- Failure text for a raw value the declared type cannot be coerced from
(the `ValueError` handler of `set_setting`). -/
def msgValueProblem : String :=
  "There was a problem processing the value you gave for the specific setting."

/-- Confirmation text of a successful `set_setting`. -/
def confirmMsg (setting value : String) : String :=
  "The " ++ setting ++ " setting has been changed to " ++ value

/-- `valid_bomb_settings["difficulty"]`. -/
def validDifficulties : List String :=
  ["easy", "medium", "hard", "nightmare", "impossible"]

/-- Digit run of a Python `int(...)` coercion: `none` on an empty or
non-digit run. -/
def digitsVal (l : List Char) : Option Nat :=
  if l = [] then none
  else l.foldl
    (fun acc c => acc.bind fun n =>
      if c.isDigit then some (10 * n + (c.toNat - 48)) else none)
    (some 0)

/-- Python `int(value)` on a raw string: an optional sign followed by
digits; `none` models the `ValueError` it otherwise raises. (Python also
strips surrounding whitespace and embedded underscores; no claim depends
on those forms, so they are modelled as failures.) -/
def pyIntCoerce (s : String) : Option Int :=
  match s.toList with
  | '-' :: rest => (digitsVal rest).map fun n => -(n : Int)
  | '+' :: rest => (digitsVal rest).map fun n => (n : Int)
  | l => (digitsVal l).map fun n => (n : Int)

/-- `on_lives_set`: reset every player's lives to the committed setting. -/
def on_lives_set (st : BombParty) : BombParty :=
  { st with party := setAllLives st.party st.bomb_settings.lives }

/-- `set_setting`: dispatch on the (heterogeneously typed) setting name;
unknown name, failed coercion and out-of-domain value each return their
failure string with the state untouched; otherwise the value is committed,
the `lives` cascade runs, and a confirmation string is returned. The
Python `try`/`except ValueError` around the `int` coercion is the `none`
branch of `pyIntCoerce`. -/
def set_setting (st : BombParty) (setting value : String) : String × BombParty :=
  if setting = "difficulty" then
    if value ∈ validDifficulties then
      (confirmMsg setting value,
        { st with bomb_settings := { st.bomb_settings with difficulty := value } })
    else (msgInvalidValue, st)
  else if setting = "timer" then
    match pyIntCoerce value with
    | none => (msgValueProblem, st)
    | some v =>
      if 5 ≤ v ∧ v ≤ 60 then
        (confirmMsg setting (toString v),
          { st with bomb_settings := { st.bomb_settings with timer := v } })
      else (msgInvalidValue, st)
  else if setting = "minimum_time" then
    match pyIntCoerce value with
    | none => (msgValueProblem, st)
    | some v =>
      if 0 ≤ v ∧ v ≤ 10 then
        (confirmMsg setting (toString v),
          { st with bomb_settings := { st.bomb_settings with minimum_time := v } })
      else (msgInvalidValue, st)
  else if setting = "lives" then
    match pyIntCoerce value with
    | none => (msgValueProblem, st)
    | some v =>
      if 1 ≤ v ∧ v ≤ 5 then
        (confirmMsg setting (toString v),
          on_lives_set { st with bomb_settings := { st.bomb_settings with lives := v } })
      else (msgInvalidValue, st)
  else (msgInvalidSetting, st)

/-- Failure text for a word already submitted this game. -/
def msgAlreadyUsed : String := "That word has already been used."

/-- Failure text for a word missing the required fragment. -/
def msgMissingLetters (letters : Word) : String :=
  "That word does not contain your string of letters: " ++ String.mk letters

/-- Failure text for answering with the fragment itself. -/
def msgTrivialAnswer : String := "You cannot answer with the string of letters itself."

/-- `check_message`: pure validation of a submitted word against the used
set and the current fragment; `none` is success. -/
def check_message (st : BombParty) (message : Word) : Option String :=
  let m := lower message
  if m ∈ st.used_words then some msgAlreadyUsed
  else if !(hasSubstr st.current_letters m) then some (msgMissingLetters st.current_letters)
  else if m.length = st.current_letters.length then some msgTrivialAnswer
  else none

/-! ### Claim C1: countdown decay -/

/-- A lobby-default state whose countdown is 30, grace period 5 and
countdown start time 0 (the defaults), used as concrete input. -/
def exDecay : BombParty := set_default_values

/-- C1 (counterexample): the code does not floor the countdown at 0.  At
remaining = 30, grace = 5, elapsed = 100 the decay leaves `-65`, while the
claimed formula `max(0, r - max(0, e - g))` gives `0`. -/
theorem on_word_used_decay_not_floored :
    (on_word_used exDecay ['h', 'i'] 100).timer = -65 ∧
    (on_word_used exDecay ['h', 'i'] 100).timer < 0 ∧
    max 0 (exDecay.timer -
      max 0 (100 - exDecay.bomb_start_time - (exDecay.bomb_settings.minimum_time : ℚ))) = 0 := by
  refine ⟨?_, ?_, ?_⟩ <;>
    norm_num [on_word_used, exDecay, set_default_values, default_settings]

/-- C1 (amended): for a state with remaining countdown `r`, grace period
`g ≥ 0` and elapsed time `e ≥ 0`, `on_word_used` sets the countdown to
`r - max(0, e - g)` (no outer floor at 0); the decay is non-increasing and
an elapsed time within the grace window leaves the countdown unchanged,
but the resulting value can be negative. -/
theorem on_word_used_decay (st : BombParty) (message : Word) (e : ℚ)
    (hg : 0 ≤ (st.bomb_settings.minimum_time : ℚ)) (he : 0 ≤ e) :
    (on_word_used st message (st.bomb_start_time + e)).timer
        = st.timer - max 0 (e - (st.bomb_settings.minimum_time : ℚ)) ∧
    (on_word_used st message (st.bomb_start_time + e)).timer ≤ st.timer ∧
    (e ≤ (st.bomb_settings.minimum_time : ℚ) →
        (on_word_used st message (st.bomb_start_time + e)).timer = st.timer) := by
  have key : (on_word_used st message (st.bomb_start_time + e)).timer
      = st.timer - max 0 (e - (st.bomb_settings.minimum_time : ℚ)) := by
    show st.timer - max 0 (st.bomb_start_time + e - st.bomb_start_time
        - (st.bomb_settings.minimum_time : ℚ)) = _
    ring_nf
  refine ⟨key, ?_, ?_⟩
  · rw [key]
    exact sub_le_self _ (le_max_left 0 _)
  · intro hle
    rw [key, max_eq_left (sub_nonpos.mpr hle), sub_zero]

/-- C1 witness: the amended statement evaluated at the default state with
grace 5 and elapsed 3 (inside the grace window). -/
theorem on_word_used_decay_witness :
    ((0 : ℚ) ≤ (exDecay.bomb_settings.minimum_time : ℚ) ∧ (0 : ℚ) ≤ 3) ∧
    ((on_word_used exDecay ['h', 'i'] (exDecay.bomb_start_time + 3)).timer
        = exDecay.timer - max 0 (3 - (exDecay.bomb_settings.minimum_time : ℚ)) ∧
      (on_word_used exDecay ['h', 'i'] (exDecay.bomb_start_time + 3)).timer ≤ exDecay.timer ∧
      ((3 : ℚ) ≤ (exDecay.bomb_settings.minimum_time : ℚ) →
        (on_word_used exDecay ['h', 'i'] (exDecay.bomb_start_time + 3)).timer = exDecay.timer)) :=
  ⟨⟨by norm_num [exDecay, set_default_values, default_settings], by norm_num⟩,
    on_word_used_decay exDecay ['h', 'i'] 3
      (by norm_num [exDecay, set_default_values, default_settings]) (by norm_num)⟩

/-! ### Claim C2: starting the game -/

/-- A state with a two-member party whose current turn index is 3 (as left
behind in scenarios where the host does not reset between games). -/
def exStart : BombParty :=
  { set_default_values with
      party := [(['a'], { user := ['a'], lives := 3 }),
                (['b'], { user := ['b'], lives := 3 })]
      current_player_index := 3 }

/-- C2 (counterexample): `on_start` never touches the current turn index.
Started from a state whose index is 3, with the identity permutation as
the random source, the index after `on_start` is still 3, not 0. -/
theorem on_start_index_not_reset :
    (on_start exStart id 0).current_player_index = 3 ∧
    (on_start exStart id 0).current_player_index ≠ 0 :=
  ⟨rfl, by decide⟩

/-- C2 (amended): for every state and every permutation-producing random
source, after `on_start` the turn order is a permutation of the party's
member identities at that moment (hence of the same length as the party),
and the current turn index is left unchanged — it is 0 only when it was 0
before the call, as in a freshly reset state. -/
theorem on_start_turn_order_perm (st : BombParty)
    (shuffle : List Word → List Word) (now : ℚ)
    (hs : ∀ l, List.Perm (shuffle l) l) :
    List.Perm (on_start st shuffle now).turn_order (partyKeys st.party) ∧
    (on_start st shuffle now).turn_order.length = st.party.length ∧
    (on_start st shuffle now).current_player_index = st.current_player_index := by
  refine ⟨hs (partyKeys st.party), ?_, rfl⟩
  have hlen := (hs (partyKeys st.party)).length_eq
  simpa [on_start, partyKeys] using hlen

/-- C2 witness: the amended statement evaluated on the two-member party
with the identity permutation as random source. -/
theorem on_start_turn_order_perm_witness :
    List.Perm (on_start exStart id 0).turn_order (partyKeys exStart.party) ∧
    (on_start exStart id 0).turn_order.length = exStart.party.length ∧
    (on_start exStart id 0).current_player_index = exStart.current_player_index :=
  on_start_turn_order_perm exStart id 0 fun l => List.Perm.refl l

/-! ### Claim C4: word validation -/

/-- Every word is a substring of itself (`take` of the full length). -/
theorem hasSubstr_self (s : Word) : hasSubstr s s = true := by
  cases s with
  | nil => rfl
  | cons c rest => simp [hasSubstr, List.take_length]

/-- Lowercasing preserves length. -/
theorem lower_length (w : Word) : (lower w).length = w.length := by
  simp [lower]

/-- C4: `check_message` is a pure function of the state (it returns only a
message and touches nothing); it fails with the already-used message when
the lowercased text is among the used words, otherwise with the
missing-fragment message when the fragment is not a substring of the
lowercased text, otherwise with the trivial-answer message when the text
is as long as the fragment — in particular on a text whose lowercase is
the fragment itself even if never used — and succeeds otherwise. -/
theorem check_message_cases (st : BombParty) (message : Word) :
    (lower message ∈ st.used_words →
        check_message st message = some msgAlreadyUsed) ∧
    (lower message ∉ st.used_words →
      hasSubstr st.current_letters (lower message) = false →
        check_message st message = some (msgMissingLetters st.current_letters)) ∧
    (lower message ∉ st.used_words →
      hasSubstr st.current_letters (lower message) = true →
      message.length = st.current_letters.length →
        check_message st message = some msgTrivialAnswer) ∧
    (lower message ∉ st.used_words →
      hasSubstr st.current_letters (lower message) = true →
      message.length ≠ st.current_letters.length →
        check_message st message = none) ∧
    (lower message = st.current_letters → lower message ∉ st.used_words →
        check_message st message = some msgTrivialAnswer) := by
  refine ⟨?_, ?_, ?_, ?_, ?_⟩
  · intro h1
    simp [check_message, h1]
  · intro h1 h2
    simp [check_message, h1, h2]
  · intro h1 h2 h3
    have h4 : (lower message).length = st.current_letters.length := by
      rw [lower_length]; exact h3
    simp [check_message, h1, h2, h4]
  · intro h1 h2 h3
    have h4 : ¬ (lower message).length = st.current_letters.length := by
      rw [lower_length]; exact h3
    simp [check_message, h1, h2, h4]
  · intro h1 h2
    have h3 : hasSubstr st.current_letters (lower message) = true := by
      rw [h1]; exact hasSubstr_self _
    have h4 : (lower message).length = st.current_letters.length := by rw [h1]
    simp [check_message, h2, h3, h4]

/-- A mid-round state with fragment `ab` and one used word `up`. -/
def exCheck : BombParty :=
  { set_default_values with
      used_words := [['u', 'p']]
      current_letters := ['a', 'b'] }

/-- C4 witness: all four outcomes of `check_message` on concrete texts,
including the rejection of (a different casing of) the fragment itself. -/
theorem check_message_cases_witness :
    check_message exCheck ['u', 'P'] = some msgAlreadyUsed ∧
    check_message exCheck ['x', 'y'] = some (msgMissingLetters exCheck.current_letters) ∧
    check_message exCheck ['c', 'a', 'b'] = none ∧
    check_message exCheck ['A', 'B'] = some msgTrivialAnswer :=
  ⟨(check_message_cases exCheck ['u', 'P']).1 (by decide),
    (check_message_cases exCheck ['x', 'y']).2.1 (by decide) (by decide),
    (check_message_cases exCheck ['c', 'a', 'b']).2.2.2.1 (by decide) (by decide) (by decide),
    (check_message_cases exCheck ['A', 'B']).2.2.2.2 (by decide) (by decide)⟩

/-! ### Claim C5: the lives cascade -/

/-- C5: whatever the game phase, a successful `set_setting` of `lives`
commits the coerced value and immediately resets every current player's
lives to it. -/
theorem set_setting_lives_cascade (st : BombParty) (raw : String) (v : Int)
    (hparse : pyIntCoerce raw = some v) (h1 : 1 ≤ v) (h5 : v ≤ 5) :
    (set_setting st "lives" raw).1 = confirmMsg "lives" (toString v) ∧
    (set_setting st "lives" raw).2.bomb_settings.lives = v ∧
    ∀ e ∈ (set_setting st "lives" raw).2.party, e.2.lives = v := by
  have hred : set_setting st "lives" raw
      = (confirmMsg "lives" (toString v),
          on_lives_set { st with bomb_settings := { st.bomb_settings with lives := v } }) := by
    simp [set_setting, hparse, h1, h5]
  rw [hred]
  refine ⟨rfl, rfl, ?_⟩
  intro e he
  simp only [on_lives_set, setAllLives, List.mem_map] at he
  obtain ⟨e', _, rfl⟩ := he
  rfl

/-- A two-player party in a started game. -/
def exParty : BombParty :=
  { set_default_values with
      party := [(['a'], { user := ['a'], lives := 3 }),
                (['b'], { user := ['b'], lives := 1 })]
      turn_order := [['b'], ['a']]
      started := true }

/-- C5 witness: `set("lives", "2")` on a started two-player game resets
both players' lives to 2. -/
theorem set_setting_lives_cascade_witness :
    (set_setting exParty "lives" "2").1 = confirmMsg "lives" (toString (2 : Int)) ∧
    (set_setting exParty "lives" "2").2.bomb_settings.lives = 2 ∧
    ∀ e ∈ (set_setting exParty "lives" "2").2.party, e.2.lives = 2 :=
  set_setting_lives_cascade exParty "2" 2 (by decide) (by decide) (by decide)

/-! ### Claim C6: `set_setting` never throws -/

/-- Case shape of `set_setting`: each run either fails with one of the
three failure messages and returns the state untouched, or returns a
confirmation message. -/
theorem set_setting_shape (st : BombParty) (setting value : String) :
    ((set_setting st setting value).1 = msgInvalidSetting ∨
      (set_setting st setting value).1 = msgInvalidValue ∨
      (set_setting st setting value).1 = msgValueProblem) ∧
      (set_setting st setting value).2 = st ∨
    ∃ v : String, (set_setting st setting value).1 = confirmMsg setting v := by
  unfold set_setting
  split
  · split
    · exact Or.inr ⟨value, rfl⟩
    · exact Or.inl ⟨Or.inr (Or.inl rfl), rfl⟩
  · split
    · split
      · exact Or.inl ⟨Or.inr (Or.inr rfl), rfl⟩
      · split
        · exact Or.inr ⟨_, rfl⟩
        · exact Or.inl ⟨Or.inr (Or.inl rfl), rfl⟩
    · split
      · split
        · exact Or.inl ⟨Or.inr (Or.inr rfl), rfl⟩
        · split
          · exact Or.inr ⟨_, rfl⟩
          · exact Or.inl ⟨Or.inr (Or.inl rfl), rfl⟩
      · split
        · split
          · exact Or.inl ⟨Or.inr (Or.inr rfl), rfl⟩
          · split
            · exact Or.inr ⟨_, rfl⟩
            · exact Or.inl ⟨Or.inr (Or.inl rfl), rfl⟩
        · exact Or.inl ⟨Or.inl rfl, rfl⟩

/-- C6: `set_setting` is a total function — the only Python exception its
body can raise, the `ValueError` of the `int` coercion, is caught (the
`none` branch of `pyIntCoerce`) — and its message is always either one of
the three descriptive failure strings or a confirmation string. -/
theorem set_setting_never_throws (st : BombParty) (setting value : String) :
    (set_setting st setting value).1 = msgInvalidSetting ∨
    (set_setting st setting value).1 = msgInvalidValue ∨
    (set_setting st setting value).1 = msgValueProblem ∨
    ∃ v : String, (set_setting st setting value).1 = confirmMsg setting v := by
  rcases set_setting_shape st setting value with ⟨hm, _⟩ | ⟨v, hv⟩
  · rcases hm with h | h | h
    · exact Or.inl h
    · exact Or.inr (Or.inl h)
    · exact Or.inr (Or.inr (Or.inl h))
  · exact Or.inr (Or.inr (Or.inr ⟨v, hv⟩))

/-! ### Claim C10: failures leave the state untouched -/

/-- The character data of a confirmation message starts with `The `
followed by the setting name and the fixed tail. -/
theorem confirmMsg_data (s v : String) :
    (confirmMsg s v).data
      = 'T' :: 'h' :: 'e' :: ' '
          :: (s.data ++ (" setting has been changed to ".data ++ v.data)) := by
  show (("The " ++ s ++ " setting has been changed to ") ++ v).data = _
  have hd : ∀ a b : String, (a ++ b).data = a.data ++ b.data := fun _ _ => rfl
  rw [hd, hd, hd]
  simp

/-- A confirmation message is never one of the three failure messages
(their first four characters differ). -/
theorem confirmMsg_ne_failures (s v : String) :
    confirmMsg s v ≠ msgInvalidSetting ∧
    confirmMsg s v ≠ msgInvalidValue ∧
    confirmMsg s v ≠ msgValueProblem := by
  refine ⟨fun h => ?_, fun h => ?_, fun h => ?_⟩ <;>
  · have h2 := congrArg (fun t : String => t.data.take 4) h
    simp only [confirmMsg_data, List.take_succ_cons, List.take_zero] at h2
    exact absurd h2 (by decide)

/-- C10: whenever `set_setting` returns one of its three failure messages
the state is returned exactly as it was: the settings hold their prior
values and every player's lives is untouched; the commit and the lives
cascade happen only on the success path. -/
theorem set_setting_failure_no_mutation (st : BombParty) (setting value : String)
    (h : (set_setting st setting value).1 = msgInvalidSetting ∨
         (set_setting st setting value).1 = msgInvalidValue ∨
         (set_setting st setting value).1 = msgValueProblem) :
    (set_setting st setting value).2 = st := by
  rcases set_setting_shape st setting value with ⟨_, h2⟩ | ⟨v, hv⟩
  · exact h2
  · exfalso
    rcases h with h | h | h
    · exact (confirmMsg_ne_failures setting v).1 (hv.symm.trans h)
    · exact (confirmMsg_ne_failures setting v).2.1 (hv.symm.trans h)
    · exact (confirmMsg_ne_failures setting v).2.2 (hv.symm.trans h)

/-- C10 witness: a failing `set_setting` call on a concrete state returns
that state unchanged. -/
theorem set_setting_failure_no_mutation_witness :
    (set_setting exStart "bogus" "1").2 = exStart :=
  set_setting_failure_no_mutation exStart "bogus" "1" (Or.inl (by decide))

/-! ### Claim C7: no case-insensitive duplicates in the used words -/

/-- `Char.toLower` is idempotent: lowering an upper-case latin letter lands
outside the upper-case range, and lowering fixes everything else. -/
theorem toLower_toLower (c : Char) : c.toLower.toLower = c.toLower := by
  by_cases h : 65 ≤ c.toNat ∧ c.toNat ≤ 90
  · have h1 : c.toLower = Char.ofNat (c.toNat + 32) := by
      unfold Char.toLower
      exact if_pos h
    rw [h1]
    obtain ⟨ha, hb⟩ := h
    generalize hg : c.toNat = n at ha hb
    interval_cases n <;> decide
  · have h1 : c.toLower = c := by
      unfold Char.toLower
      exact if_neg h
    rw [h1, h1]

/-- Python's characterwise `lower` is idempotent. -/
theorem lower_lower (w : Word) : lower (lower w) = lower w := by
  unfold lower
  rw [List.map_map]
  exact List.map_congr_left fun c _ => toLower_toLower c

/-- The guarded protocol of the claim (spec §4.6): `on_word_used` is
invoked only on texts that `check_message` accepts; rejected texts leave
the state alone. `runGuarded` folds such a call sequence. -/
def runGuarded (st : BombParty) : List (Word × ℚ) → BombParty
  | [] => st
  | c :: rest =>
    runGuarded (if check_message st c.1 = none then on_word_used st c.1 c.2 else st) rest

/-- Invariant of guarded runs: the used words stay duplicate-free and all
lowercased (each accepted text is recorded lowercased and the guard
refuses any text whose lowercase is already present). -/
theorem runGuarded_inv (calls : List (Word × ℚ)) : ∀ st : BombParty,
    st.used_words.Nodup → (∀ w ∈ st.used_words, lower w = w) →
    (runGuarded st calls).used_words.Nodup ∧
      ∀ w ∈ (runGuarded st calls).used_words, lower w = w := by
  induction calls with
  | nil => exact fun st h1 h2 => ⟨h1, h2⟩
  | cons c rest ih =>
    intro st h1 h2
    by_cases hg : check_message st c.1 = none
    · have hnotin : lower c.1 ∉ st.used_words := by
        intro hmem
        rw [show check_message st c.1 = some msgAlreadyUsed from by
          simp [check_message, hmem]] at hg
        exact Option.noConfusion hg
      have hstep : runGuarded st (c :: rest) = runGuarded (on_word_used st c.1 c.2) rest := by
        simp [runGuarded, hg]
      rw [hstep]
      refine ih _ ?_ ?_
      · show (st.used_words ++ [lower c.1]).Nodup
        rw [List.nodup_append]
        refine ⟨h1, List.nodup_singleton _, ?_⟩
        intro w hw hw1
        rw [List.mem_singleton] at hw1
        exact hnotin (hw1 ▸ hw)
      · intro w hw
        rcases List.mem_append.mp hw with hw | hw
        · exact h2 w hw
        · rw [List.mem_singleton] at hw
          rw [hw]
          exact lower_lower c.1
    · have hstep : runGuarded st (c :: rest) = runGuarded st rest := by
        simp [runGuarded, hg]
      rw [hstep]
      exact ih st h1 h2

/-- C7: starting from a state whose used words are duplicate-free and
lowercased (as the initial empty list is), any sequence of guarded
`on_word_used` calls leaves the used-words list without two
case-insensitively equal entries — two casings of the same text insert at
most one entry. -/
theorem guarded_words_no_dup (st : BombParty) (calls : List (Word × ℚ))
    (h1 : st.used_words.Nodup) (h2 : ∀ w ∈ st.used_words, lower w = w) :
    (runGuarded st calls).used_words.Nodup ∧
    ((runGuarded st calls).used_words.map lower).Nodup := by
  obtain ⟨hn, hl⟩ := runGuarded_inv calls st h1 h2
  refine ⟨hn, ?_⟩
  have hfix : (runGuarded st calls).used_words.map lower = (runGuarded st calls).used_words :=
    (List.map_congr_left fun w hw => hl w hw).trans (List.map_id _)
  rw [hfix]
  exact hn

/-- C7 witness: two guarded submissions of the same word in different
casings, starting from the fresh state; a single entry lands. -/
theorem guarded_words_no_dup_witness :
    (runGuarded set_default_values [(['W', 'o'], 0), (['w', 'O'], 0)]).used_words
        = [['w', 'o']] ∧
    ((runGuarded set_default_values [(['W', 'o'], 0), (['w', 'O'], 0)]).used_words.Nodup ∧
      ((runGuarded set_default_values
          [(['W', 'o'], 0), (['w', 'O'], 0)]).used_words.map lower).Nodup) :=
  ⟨by decide,
    guarded_words_no_dup set_default_values [(['W', 'o'], 0), (['w', 'O'], 0)]
      (by decide) (by decide)⟩

/-! ### Claim C9: winner determination -/

/-- C9: on any state satisfying the data-model invariant that lives are
non-negative, `get_winner` returns a player exactly when exactly one
player has positive lives — that player, with every other live player
equal to it — and returns `none` when the number of live players is 0 or
at least 2. -/
theorem get_winner_unique_alive (st : BombParty)
    (h : ∀ e ∈ st.party, 0 ≤ e.2.lives) :
    (∀ p, get_winner st = some p →
        0 < p.lives ∧ p ∈ st.party.map Prod.snd ∧
        ∀ q ∈ st.party.map Prod.snd, 0 < q.lives → q = p) ∧
    (((st.party.map Prod.snd).filter fun p => decide (0 < p.lives)).length = 1 →
        ∃ p, get_winner st = some p ∧ 0 < p.lives) ∧
    (((st.party.map Prod.snd).filter fun p => decide (0 < p.lives)).length ≠ 1 →
        get_winner st = none) := by
  have hfe : (st.party.map Prod.snd).filter (fun p => decide (¬ p.lives = 0))
      = (st.party.map Prod.snd).filter (fun p => decide (0 < p.lives)) := by
    apply List.filter_congr
    intro p hp
    rcases List.mem_map.mp hp with ⟨e, he, rfl⟩
    have h0 : 0 ≤ e.2.lives := h e he
    by_cases hz : e.2.lives = 0
    · simp [hz]
    · simp [hz, lt_of_le_of_ne h0 (Ne.symm hz)]
  have hw : get_winner st
      = if ((st.party.map Prod.snd).filter fun p => decide (0 < p.lives)).length = 1
        then ((st.party.map Prod.snd).filter fun p => decide (0 < p.lives)).head?
        else none := by
    simp only [get_winner, hfe]
  refine ⟨?_, ?_, ?_⟩
  · intro p hp
    rw [hw] at hp
    by_cases hlen :
        ((st.party.map Prod.snd).filter fun p => decide (0 < p.lives)).length = 1
    · rw [if_pos hlen] at hp
      obtain ⟨a, ha⟩ := List.length_eq_one.mp hlen
      rw [ha] at hp
      have hpa : a = p := by simpa using hp
      subst hpa
      have hmem : a ∈ (st.party.map Prod.snd).filter fun p => decide (0 < p.lives) := by
        rw [ha]
        exact List.mem_singleton_self _
      refine ⟨by simpa using List.of_mem_filter hmem, List.mem_of_mem_filter hmem, ?_⟩
      intro q hq hq0
      have hqmem : q ∈ (st.party.map Prod.snd).filter fun p => decide (0 < p.lives) :=
        List.mem_filter.mpr ⟨hq, by simpa using hq0⟩
      rw [ha] at hqmem
      simpa using hqmem
    · rw [if_neg hlen] at hp
      exact Option.noConfusion hp
  · intro hlen
    rw [hw, if_pos hlen]
    obtain ⟨a, ha⟩ := List.length_eq_one.mp hlen
    have hmem : a ∈ (st.party.map Prod.snd).filter fun p => decide (0 < p.lives) := by
      rw [ha]
      exact List.mem_singleton_self _
    exact ⟨a, by rw [ha]; rfl, by simpa using List.of_mem_filter hmem⟩
  · intro hlen
    rw [hw, if_neg hlen]

/-- A party where exactly one player still has lives. -/
def exWinner : BombParty :=
  { set_default_values with
      party := [(['a'], { user := ['a'], lives := 2 }),
                (['b'], { user := ['b'], lives := 0 })]
      turn_order := [['a'], ['b']]
      started := true }

/-- C9 witness: with one live player among two, `get_winner` returns it. -/
theorem get_winner_unique_alive_witness :
    get_winner exWinner = some { user := ['a'], lives := 2 } ∧
    ∃ p, get_winner exWinner = some p ∧ 0 < p.lives :=
  ⟨by decide, (get_winner_unique_alive exWinner (by decide)).2.1 (by decide)⟩

/-! ### Claim C3: turn advancement terminates on a different live player -/

/-- Iterated circular bump of the loop counter. -/
def iterNext (n : Nat) : Nat → Nat → Nat
  | 0, i => i
  | k + 1, i => iterNext n k (nextIndex n i)

theorem iterNext_succ (n k i : Nat) :
    iterNext n (k + 1) i = iterNext n k (nextIndex n i) := rfl

theorem nextIndex_lt (n i : Nat) (hn : 0 < n) (hi : i < n) : nextIndex n i < n := by
  unfold nextIndex
  split <;> omega

theorem nextIndex_eq (n i : Nat) (hi : i < n) : nextIndex n i = (i + 1) % n := by
  unfold nextIndex
  split
  · rename_i h
    rw [show i + 1 = n from by omega, Nat.mod_self]
  · rename_i h
    rw [Nat.mod_eq_of_lt (by omega)]

theorem iterNext_lt (n : Nat) (hn : 0 < n) : ∀ k i, i < n → iterNext n k i < n := by
  intro k
  induction k with
  | zero => exact fun i hi => hi
  | succ k ih => exact fun i hi => ih _ (nextIndex_lt n i hn hi)

theorem iterNext_eq_mod (n : Nat) : ∀ k i, i < n → iterNext n k i = (i + k) % n := by
  intro k
  induction k with
  | zero =>
    intro i hi
    show i = (i + 0) % n
    rw [Nat.add_zero, Nat.mod_eq_of_lt hi]
  | succ k ih =>
    intro i hi
    have hn : 0 < n := Nat.lt_of_le_of_lt (Nat.zero_le _) hi
    rw [iterNext_succ, ih _ (nextIndex_lt n i hn hi), nextIndex_eq n i hi,
      Nat.mod_add_mod]
    congr 1
    omega

/-- Any index other than the start is reached by 1 to `n - 1` circular bumps. -/
theorem circular_reach (n i j : Nat) (hi : i < n) (hj : j < n) (hne : j ≠ i) :
    ∃ k, 1 ≤ k ∧ k ≤ n - 1 ∧ iterNext n k i = j := by
  by_cases hlt : i < j
  · refine ⟨j - i, by omega, by omega, ?_⟩
    rw [iterNext_eq_mod n (j - i) i hi, show i + (j - i) = j from by omega,
      Nat.mod_eq_of_lt hj]
  · refine ⟨n + j - i, by omega, by omega, ?_⟩
    rw [iterNext_eq_mod n (n + j - i) i hi,
      show i + (n + j - i) = n + j from by omega, Nat.add_mod_left,
      Nat.mod_eq_of_lt hj]

/-- Characterization of `next_player`'s loop: while some circularly
reachable index within the fuel carries a live player different from the
original one, the loop stops at the first such index, having walked over
only indices whose players are dead or equal to the original player. -/
theorem next_player_loop_finds (st : BombParty) (orig : Word)
    (hsome : ∀ j, j < st.turn_order.length → (playerAt st j).isSome) :
    ∀ fuel i, i < st.turn_order.length →
      (∃ k, k < fuel ∧ ∃ p,
          playerAt st (iterNext st.turn_order.length k i) = some p ∧
          ¬ (p.lives = 0 ∨ p.user = orig)) →
      ∃ k, k < fuel ∧
        (∃ p, playerAt st (iterNext st.turn_order.length k i) = some p ∧
            ¬ (p.lives = 0 ∨ p.user = orig)) ∧
        (∀ m, m < k → ∃ q,
            playerAt st (iterNext st.turn_order.length m i) = some q ∧
            (q.lives = 0 ∨ q.user = orig)) ∧
        next_player_loop st orig fuel i = some (iterNext st.turn_order.length k i) := by
  intro fuel
  induction fuel with
  | zero =>
    intro i hi hex
    obtain ⟨k, hk, _⟩ := hex
    exact absurd hk (Nat.not_lt_zero k)
  | succ fuel ih =>
    intro i hi hex
    obtain ⟨k, hk, p, hp, hcond⟩ := hex
    have hn : 0 < st.turn_order.length := Nat.lt_of_le_of_lt (Nat.zero_le _) hi
    obtain ⟨q, hq⟩ := Option.isSome_iff_exists.mp (hsome i hi)
    by_cases hc : q.lives = 0 ∨ q.user = orig
    · have hk0 : k ≠ 0 := by
        intro h0
        subst h0
        rw [show iterNext st.turn_order.length 0 i = i from rfl, hq] at hp
        exact hcond (Option.some.inj hp ▸ hc)
      obtain ⟨k', rfl⟩ : ∃ k', k = k' + 1 := ⟨k - 1, by omega⟩
      have hnlt : nextIndex st.turn_order.length i < st.turn_order.length :=
        nextIndex_lt _ _ hn hi
      obtain ⟨k0, hk0f, hstop, hall, hloop⟩ :=
        ih (nextIndex st.turn_order.length i) hnlt
          ⟨k', by omega, p, by rw [← iterNext_succ]; exact hp, hcond⟩
      refine ⟨k0 + 1, by omega, by rw [iterNext_succ]; exact hstop, ?_, ?_⟩
      · intro m hm
        cases m with
        | zero => exact ⟨q, hq, hc⟩
        | succ m' =>
          rw [iterNext_succ]
          exact hall m' (by omega)
      · rw [iterNext_succ]
        simp only [next_player_loop, hq]
        rw [if_pos hc]
        exact hloop
    · refine ⟨0, by omega, ⟨q, hq, hc⟩, fun m hm => absurd hm (Nat.not_lt_zero m), ?_⟩
      simp only [next_player_loop, hq]
      rw [if_neg hc]
      rfl

/-- C3: whenever some entry of the turn order other than the current one
carries a live player, `next_player` (with fuel `len + 1`, enough for a
full circular sweep) terminates and returns the state with only the
current index and the countdown start timestamp changed; the new index
carries a live player different from the one who just acted, and was
reached by walking the index forward circularly, skipping exactly the
entries whose players are dead or are the player who just acted. -/
theorem next_player_ok (st : BombParty) (now : ℚ)
    (hnodup : st.turn_order.Nodup)
    (hmem : ∀ u ∈ st.turn_order, ∃ p, lookupUser st.party u = some p ∧ p.user = u)
    (hidx : st.current_player_index < st.turn_order.length)
    (halive : ∃ j, j < st.turn_order.length ∧ j ≠ st.current_player_index ∧
        ∃ p, playerAt st j = some p ∧ ¬ p.lives = 0) :
    ∃ p0 j, current_player st = some p0 ∧
      next_player st now (st.turn_order.length + 1)
        = some { st with current_player_index := j, bomb_start_time := now } ∧
      j < st.turn_order.length ∧ j ≠ st.current_player_index ∧
      (∃ p, playerAt st j = some p ∧ ¬ p.lives = 0 ∧ ¬ p.user = p0.user) ∧
      ∃ k, 1 ≤ k ∧ k ≤ st.turn_order.length ∧
        j = iterNext st.turn_order.length k st.current_player_index ∧
        ∀ m, 1 ≤ m → m < k → ∃ q,
          playerAt st (iterNext st.turn_order.length m st.current_player_index)
              = some q ∧ (q.lives = 0 ∨ q.user = p0.user) := by
  have hn : 0 < st.turn_order.length := Nat.lt_of_le_of_lt (Nat.zero_le _) hidx
  -- every index in range designates a player whose identity is the entry
  have huser : ∀ j, (hj : j < st.turn_order.length) → ∃ p,
      playerAt st j = some p ∧ p.user = st.turn_order[j] := by
    intro j hj
    obtain ⟨p, hp, hu⟩ := hmem (st.turn_order[j]) (st.turn_order.getElem_mem hj)
    exact ⟨p, by rw [playerAt, List.getElem?_eq_getElem hj]; exact hp, hu⟩
  have hsome : ∀ j, j < st.turn_order.length → (playerAt st j).isSome := by
    intro j hj
    obtain ⟨p, hp, _⟩ := huser j hj
    rw [hp]
    rfl
  -- the current player
  obtain ⟨p0, hp0, hu0⟩ := huser st.current_player_index hidx
  have hcur : current_player st = some p0 := by
    rw [current_player, if_neg (by omega)]
    exact hp0
  -- the seed: a live player elsewhere is circularly reachable
  obtain ⟨j, hj, hjne, pj, hpj, hpjlive⟩ := halive
  obtain ⟨k1, hk11, hk1n, hk1eq⟩ :=
    circular_reach st.turn_order.length st.current_player_index j hidx hj hjne
  have hpju : pj.user ≠ p0.user := by
    obtain ⟨pj', hpj', hu'⟩ := huser j hj
    rw [hpj'] at hpj
    obtain rfl := Option.some.inj hpj
    rw [hu', hu0]
    intro h
    exact hjne ((hnodup.getElem_inj_iff).mp h)
  obtain ⟨k, hkf, ⟨p, hp, hpc⟩, hall, hloop⟩ :=
    next_player_loop_finds st p0.user hsome (st.turn_order.length + 1)
      st.current_player_index hidx
      ⟨k1, by omega, pj, hk1eq ▸ hpj, by
        intro h
        rcases h with h | h
        · exact hpjlive h
        · exact hpju h⟩
  push_neg at hpc
  obtain ⟨hplive, hpuser⟩ := hpc
  have hjoutlt : iterNext st.turn_order.length k st.current_player_index
      < st.turn_order.length := iterNext_lt _ hn k _ hidx
  have hk1le : 1 ≤ k := by
    by_contra hlt
    have hk0 : k = 0 := by omega
    subst hk0
    rw [show iterNext st.turn_order.length 0 st.current_player_index
        = st.current_player_index from rfl, hp0] at hp
    obtain rfl := Option.some.inj hp
    exact hpuser rfl
  have hjne' : iterNext st.turn_order.length k st.current_player_index
      ≠ st.current_player_index := by
    intro h
    rw [h, hp0] at hp
    obtain rfl := Option.some.inj hp
    exact hpuser rfl
  have hkle : k ≤ st.turn_order.length := by omega
  refine ⟨p0, iterNext st.turn_order.length k st.current_player_index, hcur, ?_,
    hjoutlt, hjne', ⟨p, hp, hplive, hpuser⟩,
    k, hk1le, hkle, rfl, fun m hm1 hmk => hall m hmk⟩
  unfold next_player
  rw [hcur]
  show (next_player_loop st p0.user (st.turn_order.length + 1)
      st.current_player_index).map _ = _
  rw [hloop]
  rfl

/-- A started three-player game: the current player `a` is live, `b` is
eliminated, `c` is live. -/
def exTurn : BombParty :=
  { set_default_values with
      party := [(['a'], { user := ['a'], lives := 2 }),
                (['b'], { user := ['b'], lives := 0 }),
                (['c'], { user := ['c'], lives := 1 })]
      turn_order := [['a'], ['b'], ['c']]
      started := true }

/-- C3 witness: advancing from `a` skips the eliminated `b` and stops on
`c`, resetting the countdown start timestamp to the sampled time 7. -/
theorem next_player_ok_witness :
    ∃ p0 j, current_player exTurn = some p0 ∧
      next_player exTurn 7 (exTurn.turn_order.length + 1)
        = some { exTurn with current_player_index := j, bomb_start_time := 7 } ∧
      j < exTurn.turn_order.length ∧ j ≠ exTurn.current_player_index ∧
      (∃ p, playerAt exTurn j = some p ∧ ¬ p.lives = 0 ∧ ¬ p.user = p0.user) ∧
      ∃ k, 1 ≤ k ∧ k ≤ exTurn.turn_order.length ∧
        j = iterNext exTurn.turn_order.length k exTurn.current_player_index ∧
        ∀ m, 1 ≤ m → m < k → ∃ q,
          playerAt exTurn (iterNext exTurn.turn_order.length m exTurn.current_player_index)
              = some q ∧ (q.lives = 0 ∨ q.user = p0.user) :=
  next_player_ok exTurn 7 (by decide)
    (by intro u hu; fin_cases hu <;> exact ⟨_, rfl, rfl⟩)
    (by decide)
    ⟨2, by decide, by decide, { user := ['c'], lives := 1 }, rfl, by decide⟩

/-! ### Claim C8: lifecycle invariants -/

theorem lookupUser_isSome_iff (d : List (Word × BombPartyPlayer)) (u : Word) :
    (lookupUser d u).isSome = true ↔ u ∈ partyKeys d := by
  induction d with
  | nil => simp [lookupUser, partyKeys]
  | cons e rest ih =>
    by_cases h : e.1 = u
    · simp [lookupUser, h, partyKeys]
    · have hne : ¬ u = e.1 := fun hh => h hh.symm
      simp only [lookupUser, if_neg h, partyKeys, List.map_cons, List.mem_cons]
      rw [ih]
      simp [partyKeys, hne]

theorem lookupUser_mem (d : List (Word × BombPartyPlayer)) (u : Word)
    (p : BombPartyPlayer) (h : lookupUser d u = some p) : (u, p) ∈ d := by
  induction d with
  | nil => exact absurd h (by simp [lookupUser])
  | cons e rest ih =>
    rw [lookupUser] at h
    by_cases he : e.1 = u
    · rw [if_pos he] at h
      obtain rfl := Option.some.inj h
      subst he
      exact Prod.mk.eta ▸ List.mem_cons_self e rest
    · rw [if_neg he] at h
      exact List.mem_cons_of_mem e (ih h)

theorem lookupUser_setLivesOf (d : List (Word × BombPartyPlayer)) (u : Word)
    (v : Int) (w : Word) :
    lookupUser (setLivesOf d u v) w
      = (lookupUser d w).map fun p => if w = u then { p with lives := v } else p := by
  induction d with
  | nil => rfl
  | cons e rest ih =>
    simp only [setLivesOf, List.map_cons] at ih ⊢
    by_cases he : e.1 = u
    · by_cases hw : e.1 = w
      · have hwu : w = u := by rw [← hw, he]
        simp [lookupUser, he, hw, hwu]
      · have huw : ¬ u = w := fun hh => hw (by rw [he, hh])
        have hwu : ¬ w = u := fun hh => huw hh.symm
        simp [lookupUser, he, hw, huw, hwu, ih]
    · by_cases hw : e.1 = w
      · have hwu : ¬ w = u := fun hh => he (by rw [hw, hh])
        simp [lookupUser, he, hw, hwu]
      · simp [lookupUser, he, hw, ih]

theorem lookupUser_decLivesOf (d : List (Word × BombPartyPlayer)) (u : Word) (w : Word) :
    lookupUser (decLivesOf d u) w
      = (lookupUser d w).map
          fun p => if w = u then { p with lives := p.lives - 1 } else p := by
  induction d with
  | nil => rfl
  | cons e rest ih =>
    simp only [decLivesOf, List.map_cons] at ih ⊢
    by_cases he : e.1 = u
    · by_cases hw : e.1 = w
      · have hwu : w = u := by rw [← hw, he]
        simp [lookupUser, he, hw, hwu]
      · have huw : ¬ u = w := fun hh => hw (by rw [he, hh])
        have hwu : ¬ w = u := fun hh => huw hh.symm
        simp [lookupUser, he, hw, huw, hwu, ih]
    · by_cases hw : e.1 = w
      · have hwu : ¬ w = u := fun hh => he (by rw [hw, hh])
        simp [lookupUser, he, hw, hwu]
      · simp [lookupUser, he, hw, ih]

theorem lookupUser_setAllLives (d : List (Word × BombPartyPlayer)) (v : Int) (w : Word) :
    lookupUser (setAllLives d v) w
      = (lookupUser d w).map fun p => { p with lives := v } := by
  induction d with
  | nil => rfl
  | cons e rest ih =>
    simp only [setAllLives, List.map_cons] at ih ⊢
    by_cases hw : e.1 = w
    · simp [lookupUser, hw]
    · simp [lookupUser, hw, ih]

theorem partyKeys_setLivesOf (d : List (Word × BombPartyPlayer)) (u : Word) (v : Int) :
    partyKeys (setLivesOf d u v) = partyKeys d := by
  simp only [partyKeys, setLivesOf, List.map_map]
  apply List.map_congr_left
  intro e _
  by_cases he : e.1 = u <;> simp [Function.comp, he]

theorem partyKeys_decLivesOf (d : List (Word × BombPartyPlayer)) (u : Word) :
    partyKeys (decLivesOf d u) = partyKeys d := by
  simp only [partyKeys, decLivesOf, List.map_map]
  apply List.map_congr_left
  intro e _
  by_cases he : e.1 = u <;> simp [Function.comp, he]

theorem partyKeys_setAllLives (d : List (Word × BombPartyPlayer)) (v : Int) :
    partyKeys (setAllLives d v) = partyKeys d := by
  simp only [partyKeys, setAllLives, List.map_map]
  apply List.map_congr_left
  intro e _
  simp [Function.comp]

/-- Soundness of the advance loop: a returned index designates a live
player different from the original one. -/
theorem next_player_loop_mem (st : BombParty) (orig : Word) :
    ∀ fuel i j, next_player_loop st orig fuel i = some j →
      ∃ p, playerAt st j = some p ∧ ¬ p.lives = 0 ∧ ¬ p.user = orig := by
  intro fuel
  induction fuel with
  | zero =>
    intro i j h
    exact absurd h (by simp [next_player_loop])
  | succ fuel ih =>
    intro i j h
    cases hpa : playerAt st i with
    | none =>
      simp only [next_player_loop, hpa] at h
      exact Option.noConfusion h
    | some p =>
      simp only [next_player_loop, hpa] at h
      by_cases hc : p.lives = 0 ∨ p.user = orig
      · rw [if_pos hc] at h
        exact ih _ _ h
      · rw [if_neg hc] at h
        obtain rfl := Option.some.inj h
        push_neg at hc
        exact ⟨p, hpa, hc.1, hc.2⟩

/-- An index with a resolvable player is in range. -/
theorem playerAt_lt (st : BombParty) (j : Nat) (p : BombPartyPlayer)
    (h : playerAt st j = some p) : j < st.turn_order.length := by
  unfold playerAt at h
  cases hg : st.turn_order[j]? with
  | none =>
    rw [hg] at h
    exact Option.noConfusion h
  | some u =>
    obtain ⟨hlt, _⟩ := List.getElem?_eq_some.mp hg
    exact hlt

/-- Soundness of `next_player`: a successful run only moves the current
index — to one with a live player — and resets the countdown start. -/
theorem next_player_some (st : BombParty) (now : ℚ) (fuel : Nat) (st2 : BombParty)
    (h : next_player st now fuel = some st2) :
    ∃ j p, st2 = { st with current_player_index := j, bomb_start_time := now } ∧
      playerAt st j = some p ∧ ¬ p.lives = 0 := by
  unfold next_player at h
  cases hc : current_player st with
  | none =>
    rw [hc] at h
    exact Option.noConfusion h
  | some p0 =>
    rw [hc] at h
    have h2 : (next_player_loop st p0.user fuel st.current_player_index).map
        (fun j => { st with current_player_index := j, bomb_start_time := now })
          = some st2 := h
    cases hl : next_player_loop st p0.user fuel st.current_player_index with
    | none =>
      rw [hl] at h2
      exact Option.noConfusion h2
    | some j =>
      rw [hl] at h2
      obtain rfl := Option.some.inj h2
      obtain ⟨p, hp, hlive, _⟩ := next_player_loop_mem st p0.user fuel _ j hl
      exact ⟨j, p, rfl, hp, hlive⟩

/-- Well-formedness of the party dict: unique keys, non-negative lives,
and each record's identity equal to its key. -/
def PartyOK (d : List (Word × BombPartyPlayer)) : Prop :=
  (partyKeys d).Nodup ∧ ∀ e ∈ d, 0 ≤ e.2.lives ∧ e.2.user = e.1

/-- The committed `lives` setting stays in its declared domain `1..5`. -/
def SettingsOK (s : BombSettings) : Prop := 1 ≤ s.lives ∧ s.lives ≤ 5

/-- The lifecycle invariant: a well-formed party, a valid lives setting,
a lobby (not-started) phase with an empty turn order, index 0 and all
players on at least one life, and a started phase with a duplicate-free
turn order of party members whose current entry is a live player. -/
def Inv (st : BombParty) : Prop :=
  PartyOK st.party ∧ SettingsOK st.bomb_settings ∧
  (st.started = false → st.turn_order = [] ∧ st.current_player_index = 0 ∧
      ∀ e ∈ st.party, 1 ≤ e.2.lives) ∧
  (st.started = true →
      st.turn_order.Nodup ∧
      (∀ u ∈ st.turn_order, u ∈ partyKeys st.party) ∧
      st.current_player_index < st.turn_order.length ∧
      ∃ p, playerAt st st.current_player_index = some p ∧ 1 ≤ p.lives)

/-- `Inv` only looks at the party, the lives setting, the phase flag, the
turn order and the current index. -/
theorem Inv_congr {st st' : BombParty} (h : Inv st)
    (hp : st'.party = st.party)
    (hsl : st'.bomb_settings.lives = st.bomb_settings.lives)
    (hst : st'.started = st.started) (ht : st'.turn_order = st.turn_order)
    (hi : st'.current_player_index = st.current_player_index) : Inv st' := by
  obtain ⟨h1, h2, h3, h4⟩ := h
  refine ⟨by rw [hp]; exact h1, ⟨by rw [hsl]; exact h2.1, by rw [hsl]; exact h2.2⟩,
    ?_, ?_⟩
  · intro hf
    rw [hst] at hf
    obtain ⟨a, b, c⟩ := h3 hf
    exact ⟨ht.trans a, hi.trans b, by rw [hp]; exact c⟩
  · intro hf
    rw [hst] at hf
    obtain ⟨a, b, c, p, hpp, hl⟩ := h4 hf
    refine ⟨by rw [ht]; exact a, by rw [ht, hp]; exact b, by rw [ht, hi]; exact c,
      p, ?_, hl⟩
    show playerAt st' st'.current_player_index = some p
    unfold playerAt
    rw [ht, hp, hi]
    exact hpp

/-- The fresh state satisfies the invariant. -/
theorem inv_default : Inv set_default_values := by
  refine ⟨⟨by simp [partyKeys, set_default_values], ?_⟩,
    ⟨by norm_num [set_default_values, default_settings],
      by norm_num [set_default_values, default_settings]⟩, ?_, ?_⟩
  · intro e he
    simp [set_default_values] at he
  · intro _
    refine ⟨rfl, rfl, ?_⟩
    intro e he
    simp [set_default_values] at he
  · intro hcontra
    exact absurd hcontra (by simp [set_default_values])

/-- With duplicate-free keys, looking up an entry's key finds the entry. -/
theorem lookupUser_of_mem_nodup (d : List (Word × BombPartyPlayer))
    (hnd : (partyKeys d).Nodup) (e : Word × BombPartyPlayer) (he : e ∈ d) :
    lookupUser d e.1 = some e.2 := by
  induction d with
  | nil => simp at he
  | cons a rest ih =>
    rw [partyKeys, List.map_cons, List.nodup_cons] at hnd
    rcases List.mem_cons.mp he with rfl | he'
    · rw [lookupUser, if_pos rfl]
    · rw [lookupUser]
      by_cases ha : a.1 = e.1
      · exfalso
        have : e.1 ∈ partyKeys rest := List.mem_map_of_mem Prod.fst he'
        exact hnd.1 (ha ▸ this)
      · rw [if_neg ha]
        exact ih hnd.2 he'

/-- A resolvable index designates a player record from the party. -/
theorem playerAt_mem_party (st : BombParty) (j : Nat) (p : BombPartyPlayer)
    (h : playerAt st j = some p) : ∃ u, (u, p) ∈ st.party := by
  unfold playerAt at h
  cases hg : st.turn_order[j]? with
  | none =>
    rw [hg] at h
    exact Option.noConfusion h
  | some u =>
    rw [hg] at h
    exact ⟨u, lookupUser_mem _ _ _ h⟩

/-- Decomposition of a successful `on_explode`: it resolves the current
entry and decrements exactly that player's lives, reloading the timer and
unsetting the countdown start. -/
theorem on_explode_some (st st1 : BombParty) (h : on_explode st = some st1) :
    ∃ u q, st.turn_order[st.current_player_index]? = some u ∧
      lookupUser st.party u = some q ∧
      st1 = { st with timer := (st.bomb_settings.timer : ℚ), bomb_start_time := 0,
                      party := decLivesOf st.party u } := by
  unfold on_explode at h
  by_cases hlen : st.turn_order.length = 0
  · rw [if_pos hlen] at h
    exact Option.noConfusion h
  · rw [if_neg hlen] at h
    cases hg : st.turn_order[st.current_player_index]? with
    | none =>
      rw [hg] at h
      exact Option.noConfusion h
    | some u =>
      rw [hg] at h
      have h2 : (lookupUser st.party u).map
          (fun _ => { st with timer := (st.bomb_settings.timer : ℚ), bomb_start_time := 0,
                              party := decLivesOf st.party u }) = some st1 := h
      cases hl : lookupUser st.party u with
      | none =>
        rw [hl] at h2
        exact Option.noConfusion h2
      | some q =>
        rw [hl] at h2
        exact ⟨u, q, rfl, hl, (Option.some.inj h2).symm⟩

/-- Mid-game removal never shrinks the party or the turn order: it only
zeroes the player's lives. -/
theorem remove_player_started (st : BombParty) (u : Word) (hs : st.started = true) :
    partyKeys (remove_player st u).party = partyKeys st.party ∧
    (remove_player st u).turn_order = st.turn_order ∧
    (remove_player st u).started = true ∧
    (remove_player st u).current_player_index = st.current_player_index ∧
    (remove_player st u).bomb_settings = st.bomb_settings ∧
    ((lookupUser st.party u).isSome →
        (remove_player st u).party = setLivesOf st.party u 0) ∧
    (¬ (lookupUser st.party u).isSome → (remove_player st u).party = st.party) := by
  unfold remove_player
  by_cases hin : (lookupUser st.party u).isSome
  · rw [if_pos hin, if_pos hs]
    exact ⟨partyKeys_setLivesOf _ _ _, rfl, hs, rfl, rfl, fun _ => rfl,
      fun hc => absurd hin hc⟩
  · rw [if_neg hin]
    exact ⟨rfl, rfl, hs, rfl, rfl, fun hc => absurd hc hin, fun _ => rfl⟩

/-- A resolvable index splits into the turn-order entry and its lookup. -/
theorem playerAt_eq (st : BombParty) (j : Nat) (p : BombPartyPlayer)
    (h : playerAt st j = some p) :
    ∃ u, st.turn_order[j]? = some u ∧ lookupUser st.party u = some p := by
  unfold playerAt at h
  cases hg : st.turn_order[j]? with
  | none =>
    rw [hg] at h
    exact Option.noConfusion h
  | some u =>
    rw [hg] at h
    exact ⟨u, rfl, h⟩

/-- The state component of `set_setting` is the old state, a settings-only
change that keeps `lives`, or the lives commit followed by the cascade. -/
theorem set_setting_state_cases (st : BombParty) (name value : String) :
    (set_setting st name value).2 = st ∨
    (∃ s : BombSettings, (set_setting st name value).2 = { st with bomb_settings := s } ∧
        s.lives = st.bomb_settings.lives) ∨
    (∃ v : Int, 1 ≤ v ∧ v ≤ 5 ∧
        (set_setting st name value).2
          = on_lives_set
              { st with bomb_settings := { st.bomb_settings with lives := v } }) := by
  unfold set_setting
  split
  · split
    · exact Or.inr (Or.inl ⟨_, rfl, rfl⟩)
    · exact Or.inl rfl
  · split
    · split
      · exact Or.inl rfl
      · split
        · exact Or.inr (Or.inl ⟨_, rfl, rfl⟩)
        · exact Or.inl rfl
    · split
      · split
        · exact Or.inl rfl
        · split
          · exact Or.inr (Or.inl ⟨_, rfl, rfl⟩)
          · exact Or.inl rfl
      · split
        · split
          · exact Or.inl rfl
          · split
            · rename_i hdom
              exact Or.inr (Or.inr ⟨_, hdom.1, hdom.2, rfl⟩)
            · exact Or.inl rfl
        · exact Or.inl rfl

theorem inv_add (st : BombParty) (u : Word) (hs : st.started = false) (h : Inv st) :
    Inv (add_player st u) := by
  unfold add_player
  by_cases hin : (lookupUser st.party u).isSome
  · rw [if_pos hin]
    exact h
  · rw [if_neg hin]
    obtain ⟨⟨hk, hv⟩, hset, hlobby, _⟩ := h
    obtain ⟨hord, hidx0, hl1⟩ := hlobby hs
    have hnot : u ∉ partyKeys st.party := fun hm =>
      hin ((lookupUser_isSome_iff st.party u).mpr hm)
    refine ⟨⟨?_, ?_⟩, hset, ?_, ?_⟩
    · rw [partyKeys, List.map_append, List.nodup_append]
      refine ⟨hk, by simp, ?_⟩
      intro w hw hw2
      simp only [List.map_cons, List.map_nil, List.mem_singleton] at hw2
      subst hw2
      exact hnot hw
    · intro e he
      rcases List.mem_append.mp he with he | he
      · exact hv e he
      · have he2 : e = (u, { user := u, lives := st.bomb_settings.lives }) := by
          simpa using he
        subst he2
        exact ⟨le_trans (by norm_num) hset.1, rfl⟩
    · intro _
      refine ⟨hord, hidx0, ?_⟩
      intro e he
      rcases List.mem_append.mp he with he | he
      · exact hl1 e he
      · have he2 : e = (u, { user := u, lives := st.bomb_settings.lives }) := by
          simpa using he
        subst he2
        exact hset.1
    · intro hcontra
      rw [hs] at hcontra
      exact Bool.noConfusion hcontra

theorem inv_remove_lobby (st : BombParty) (u : Word) (hs : st.started = false)
    (h : Inv st) : Inv (remove_player st u) := by
  unfold remove_player
  by_cases hin : (lookupUser st.party u).isSome
  · rw [if_pos hin, if_neg (by rw [hs]; exact Bool.false_ne_true)]
    obtain ⟨⟨hk, hv⟩, hset, hlobby, _⟩ := h
    obtain ⟨hord, hidx0, hl1⟩ := hlobby hs
    refine ⟨⟨?_, ?_⟩, hset, ?_, ?_⟩
    · rw [partyKeys, delUser]
      exact hk.sublist (List.Sublist.map Prod.fst (List.filter_sublist _))
    · intro e he
      exact hv e (List.mem_of_mem_filter he)
    · intro _
      exact ⟨hord, hidx0, fun e he => hl1 e (List.mem_of_mem_filter he)⟩
    · intro hcontra
      rw [hs] at hcontra
      exact Bool.noConfusion hcontra
  · rw [if_neg hin]
    exact h

theorem partyOK_remove (st : BombParty) (u : Word) (h : PartyOK st.party) :
    PartyOK (remove_player st u).party := by
  obtain ⟨hk, hv⟩ := h
  unfold remove_player
  by_cases hin : (lookupUser st.party u).isSome
  · rw [if_pos hin]
    by_cases hst : st.started = true
    · rw [if_pos hst]
      refine ⟨?_, ?_⟩
      · show (partyKeys (setLivesOf st.party u 0)).Nodup
        rw [partyKeys_setLivesOf]
        exact hk
      · intro e he
        simp only [setLivesOf, List.mem_map] at he
        obtain ⟨e', he', rfl⟩ := he
        by_cases heu : e'.1 = u
        · rw [if_pos heu]
          exact ⟨le_refl 0, (hv e' he').2⟩
        · rw [if_neg heu]
          exact hv e' he'
    · rw [if_neg hst]
      refine ⟨?_, ?_⟩
      · rw [partyKeys, delUser]
        exact hk.sublist (List.Sublist.map Prod.fst (List.filter_sublist _))
      · intro e he
        exact hv e (List.mem_of_mem_filter he)
  · rw [if_neg hin]
    exact ⟨hk, hv⟩

theorem inv_remove_other (st : BombParty) (u : Word) (hs : st.started = true)
    (hne : ¬ st.turn_order[st.current_player_index]? = some u) (h : Inv st) :
    Inv (remove_player st u) := by
  have h0 := h
  obtain ⟨⟨hk, hv⟩, hset, _, hstarted⟩ := h
  obtain ⟨hnd, hmemk, hlt, p, hp, hl⟩ := hstarted hs
  obtain ⟨hkeys, hturn, hst', hidx', hsets', hsome, hnone⟩ := remove_player_started st u hs
  by_cases hin : (lookupUser st.party u).isSome
  · have hparty := hsome hin
    refine ⟨partyOK_remove st u ⟨hk, hv⟩, by rw [hsets']; exact hset, ?_, ?_⟩
    · intro hf
      rw [hst'] at hf
      exact Bool.noConfusion hf
    · intro _
      refine ⟨by rw [hturn]; exact hnd, ?_, by rw [hturn, hidx']; exact hlt, ?_⟩
      · intro w hw
        rw [hturn] at hw
        rw [hkeys]
        exact hmemk w hw
      · obtain ⟨u0, hu0, hlu0⟩ := playerAt_eq st _ p hp
        have hu0u : ¬ u0 = u := fun hh => hne (by rw [hu0, hh])
        refine ⟨p, ?_, hl⟩
        unfold playerAt
        rw [hturn, hidx', hu0, hparty]
        show lookupUser (setLivesOf st.party u 0) u0 = some p
        rw [lookupUser_setLivesOf, hlu0]
        simp [hu0u]
  · have heq : remove_player st u = st := by
      unfold remove_player
      rw [if_neg hin]
    rw [heq]
    exact h0

theorem inv_set_setting (st : BombParty) (name value : String) (h : Inv st) :
    Inv (set_setting st name value).2 := by
  rcases set_setting_state_cases st name value with he | ⟨s, he, hsl⟩ | ⟨v, h1, h5, he⟩
  · rw [he]
    exact h
  · rw [he]
    exact Inv_congr h rfl hsl rfl rfl rfl
  · rw [he]
    obtain ⟨⟨hk, hv⟩, hset, hlobby, hstarted⟩ := h
    refine ⟨⟨?_, ?_⟩, ⟨h1, h5⟩, ?_, ?_⟩
    · show (partyKeys (setAllLives st.party v)).Nodup
      rw [partyKeys_setAllLives]
      exact hk
    · intro e he'
      simp only [on_lives_set, setAllLives, List.mem_map] at he'
      obtain ⟨e', he', rfl⟩ := he'
      refine ⟨?_, (hv e' he').2⟩
      show (0 : Int) ≤ v
      omega
    · intro hf
      obtain ⟨hord, hidx0, _⟩ := hlobby hf
      refine ⟨hord, hidx0, ?_⟩
      intro e he'
      simp only [on_lives_set, setAllLives, List.mem_map] at he'
      obtain ⟨e', _, rfl⟩ := he'
      show (1 : Int) ≤ v
      exact h1
    · intro hf
      obtain ⟨hnd, hmemk, hlt, p, hp, _⟩ := hstarted hf
      refine ⟨hnd, ?_, hlt, ?_⟩
      · intro w hw
        show w ∈ partyKeys (setAllLives st.party v)
        rw [partyKeys_setAllLives]
        exact hmemk w hw
      · obtain ⟨u0, hu0, hlu0⟩ := playerAt_eq st _ p hp
        refine ⟨{ p with lives := v }, ?_, h1⟩
        show (st.turn_order[st.current_player_index]?).bind
            (lookupUser (setAllLives st.party v)) = some { p with lives := v }
        rw [hu0]
        show lookupUser (setAllLives st.party v) u0 = some { p with lives := v }
        rw [lookupUser_setAllLives, hlu0]
        rfl

theorem inv_start (st : BombParty) (shuffle : List Word → List Word) (now : ℚ)
    (hs : st.started = false) (hcs : can_start st = true)
    (hperm : ∀ l, List.Perm (shuffle l) l) (h : Inv st) :
    Inv (on_start st shuffle now) := by
  obtain ⟨⟨hk, hv⟩, hset, hlobby, _⟩ := h
  obtain ⟨hord, hidx0, hl1⟩ := hlobby hs
  have hpermk := hperm (partyKeys st.party)
  have hlen : (shuffle (partyKeys st.party)).length = st.party.length := by
    rw [hpermk.length_eq, partyKeys, List.length_map]
  have hplen : 2 ≤ st.party.length := of_decide_eq_true hcs
  have hn0 : 0 < (shuffle (partyKeys st.party)).length := by omega
  refine ⟨⟨hk, hv⟩, hset, ?_, ?_⟩
  · intro hf
    exact absurd hf (by simp [on_start])
  · intro _
    refine ⟨hpermk.nodup_iff.mpr hk, ?_, ?_, ?_⟩
    · intro u hu
      exact hpermk.mem_iff.mp hu
    · show st.current_player_index < _
      rw [hidx0]
      exact hn0
    · have hu0 : (shuffle (partyKeys st.party))[st.current_player_index]?
          = some ((shuffle (partyKeys st.party)).get ⟨0, hn0⟩) := by
        rw [hidx0]
        exact List.getElem?_eq_getElem hn0
      have hmemu0 : (shuffle (partyKeys st.party)).get ⟨0, hn0⟩ ∈ partyKeys st.party :=
        hpermk.mem_iff.mp (List.getElem_mem hn0)
      obtain ⟨p, hp⟩ := Option.isSome_iff_exists.mp
        ((lookupUser_isSome_iff _ _).mpr hmemu0)
      refine ⟨p, ?_, ?_⟩
      · unfold playerAt
        show ((shuffle (partyKeys st.party))[st.current_player_index]?).bind
            (lookupUser st.party) = some p
        rw [hu0]
        show lookupUser st.party _ = some p
        exact hp
      · exact hl1 _ (lookupUser_mem _ _ _ hp)

theorem inv_next_player (base st2 : BombParty) (now : ℚ) (fuel : Nat)
    (hp : PartyOK base.party) (hset : SettingsOK base.bomb_settings)
    (hs : base.started = true) (hnd : base.turn_order.Nodup)
    (hmemk : ∀ u ∈ base.turn_order, u ∈ partyKeys base.party)
    (h : next_player base now fuel = some st2) : Inv st2 := by
  obtain ⟨j, p, rfl, hpj, hlive⟩ := next_player_some base now fuel st2 h
  refine ⟨hp, hset, ?_, ?_⟩
  · intro hf
    rw [hs] at hf
    exact Bool.noConfusion hf
  · intro _
    refine ⟨hnd, hmemk, playerAt_lt base j p hpj, p, hpj, ?_⟩
    obtain ⟨u, hmem⟩ := playerAt_mem_party base j p hpj
    have h0 : 0 ≤ p.lives := (hp.2 (u, p) hmem).1
    omega

theorem inv_explode (st st1 : BombParty) (h : Inv st) (hs : st.started = true)
    (hex : on_explode st = some st1) :
    PartyOK st1.party ∧ SettingsOK st1.bomb_settings ∧ st1.started = true ∧
      st1.turn_order = st.turn_order ∧
      partyKeys st1.party = partyKeys st.party := by
  obtain ⟨⟨hk, hv⟩, hset, _, hstarted⟩ := h
  obtain ⟨hnd, hmemk, hlt, p, hp, hl⟩ := hstarted hs
  obtain ⟨u, q, hu, hlu, rfl⟩ := on_explode_some st st1 hex
  obtain ⟨u0, hu0, hlu0⟩ := playerAt_eq st _ p hp
  have huu : u = u0 := Option.some.inj (hu ▸ hu0)
  subst huu
  have hqp : q = p := Option.some.inj ((hlu.symm).trans hlu0)
  subst hqp
  refine ⟨⟨?_, ?_⟩, hset, hs, rfl, partyKeys_decLivesOf _ _⟩
  · show (partyKeys (decLivesOf st.party u)).Nodup
    rw [partyKeys_decLivesOf]
    exact hk
  · intro e he
    simp only [decLivesOf, List.mem_map] at he
    obtain ⟨e', he', rfl⟩ := he
    by_cases heu : e'.1 = u
    · rw [if_pos heu]
      have hlook : lookupUser st.party e'.1 = some e'.2 :=
        lookupUser_of_mem_nodup st.party hk e' he'
      rw [heu, hlu] at hlook
      obtain rfl := Option.some.inj hlook
      refine ⟨?_, (hv e' he').2⟩
      show (0 : Int) ≤ e'.2.lives - 1
      omega
    · rw [if_neg heu]
      exact hv e' he'

/-- Modelled from the spec: the documented lifecycle of host-invoked
operations (the host dispatch layer itself is outside `src/`). The
operations are the source translations above; the guards are the spec's:
players join in the lobby (§3 "players join/leave freely pre-start"); the
game starts from the lobby with at least two members and a shuffled turn
order (§4.4 `start`); an accepted word passed validation and is followed
by the guarded advance (§4.6 `accept_word`, §4.4's required external
guard); an explosion is followed by the guarded advance or — when the
round is over — by the close/reset (§4.6 state machine); mid-game removal
of the active player is likewise followed by an advance or a close, since
the current index must keep designating a live entry (§3 invariants);
settings may be set at any time (§4.3), and the host may close at any
time. -/
inductive Step : BombParty → BombParty → Prop where
  | add (st : BombParty) (u : Word) : st.started = false → Step st (add_player st u)
  | progress (st : BombParty) : Step st (on_in_progress st)
  | setting (st : BombParty) (name value : String) :
      Step st (set_setting st name value).2
  | start (st : BombParty) (shuffle : List Word → List Word) (now : ℚ) :
      st.started = false → can_start st = true → (∀ l, List.Perm (shuffle l) l) →
      Step st (on_start st shuffle now)
  | remove_lobby (st : BombParty) (u : Word) :
      st.started = false → Step st (remove_player st u)
  | remove_other (st : BombParty) (u : Word) :
      st.started = true → ¬ st.turn_order[st.current_player_index]? = some u →
      Step st (remove_player st u)
  | remove_current (st : BombParty) (u : Word) (now : ℚ) (fuel : Nat) (st2 : BombParty) :
      st.started = true → st.turn_order[st.current_player_index]? = some u →
      next_player (remove_player st u) now fuel = some st2 → Step st st2
  | remove_current_close (st : BombParty) (u : Word) :
      st.started = true → st.turn_order[st.current_player_index]? = some u →
      Step st set_default_values
  | word (st : BombParty) (msg : Word) (now later : ℚ) (fuel : Nat) (st2 : BombParty) :
      st.started = true → check_message st msg = none →
      next_player (on_word_used st msg now) later fuel = some st2 → Step st st2
  | explode_advance (st st1 st2 : BombParty) (now : ℚ) (fuel : Nat) :
      st.started = true → on_explode st = some st1 →
      next_player st1 now fuel = some st2 → Step st st2
  | explode_close (st st1 : BombParty) :
      st.started = true → on_explode st = some st1 → Step st set_default_values
  | close (st : BombParty) : Step st set_default_values

/-- Every lifecycle step preserves the invariant. -/
theorem Step.inv {st st' : BombParty} (h : Step st st') (hi : Inv st) : Inv st' := by
  cases h with
  | add u hs => exact inv_add st u hs hi
  | progress => exact Inv_congr hi rfl rfl rfl rfl rfl
  | setting name value => exact inv_set_setting st name value hi
  | start shuffle now hs hcs hperm => exact inv_start st shuffle now hs hcs hperm hi
  | remove_lobby u hs => exact inv_remove_lobby st u hs hi
  | remove_other u hs hne => exact inv_remove_other st u hs hne hi
  | remove_current u now fuel st2 hs hcur hnp =>
    obtain ⟨hnd, hmemk, _, _⟩ := hi.2.2.2 hs
    obtain ⟨hkeys, hturn, hst', _, hsets', _, _⟩ := remove_player_started st u hs
    refine inv_next_player (remove_player st u) st' now fuel
      (partyOK_remove st u hi.1) (by rw [hsets']; exact hi.2.1) hst' ?_ ?_ hnp
    · rw [hturn]
      exact hnd
    · intro w hw
      rw [hturn] at hw
      rw [hkeys]
      exact hmemk w hw
  | word msg now later fuel st2 hs hchk hnp =>
    obtain ⟨hnd, hmemk, _, _⟩ := hi.2.2.2 hs
    exact inv_next_player (on_word_used st msg now) st' later fuel hi.1 hi.2.1 hs hnd hmemk hnp
  | explode_advance st1 st2 now fuel hs hex hnp =>
    obtain ⟨hnd, hmemk, _, _⟩ := hi.2.2.2 hs
    obtain ⟨hp1, hset1, hs1, hturn1, hkeys1⟩ := inv_explode st st1 hi hs hex
    refine inv_next_player st1 st' now fuel hp1 hset1 hs1 ?_ ?_ hnp
    · rw [hturn1]
      exact hnd
    · intro w hw
      rw [hturn1] at hw
      rw [hkeys1]
      exact hmemk w hw
  | remove_current_close u hs hcur => exact inv_default
  | explode_close st1 hs hex => exact inv_default
  | close => exact inv_default

/-- The states reachable from the fresh state under the lifecycle. -/
def Reachable (st : BombParty) : Prop :=
  Relation.ReflTransGen Step set_default_values st

theorem reachable_inv (st : BombParty) (h : Reachable st) : Inv st := by
  induction h with
  | refl => exact inv_default
  | tail _ hstep ih => exact hstep.inv ih

/-- A step out of a started state that stays started never removes an
entry from the party or the turn order. -/
theorem step_keeps_structure (st st' : BombParty) (h : Step st st')
    (hs : st.started = true) (hs' : st'.started = true) :
    partyKeys st'.party = partyKeys st.party ∧ st'.turn_order = st.turn_order := by
  cases h with
  | add u hf =>
    rw [hf] at hs
    exact Bool.noConfusion hs
  | progress => exact ⟨rfl, rfl⟩
  | setting name value =>
    rcases set_setting_state_cases st name value with he | ⟨s, he, _⟩ | ⟨v, _, _, he⟩
    · rw [he]
      exact ⟨rfl, rfl⟩
    · rw [he]
      exact ⟨rfl, rfl⟩
    · rw [he]
      exact ⟨partyKeys_setAllLives _ _, rfl⟩
  | start shuffle now hf _ _ =>
    rw [hf] at hs
    exact Bool.noConfusion hs
  | remove_lobby u hf =>
    rw [hf] at hs
    exact Bool.noConfusion hs
  | remove_other u hst hne =>
    obtain ⟨hkeys, hturn, _, _, _, _, _⟩ := remove_player_started st u hst
    exact ⟨hkeys, hturn⟩
  | remove_current u now fuel st2 hst hcur hnp =>
    obtain ⟨j, p, rfl, _, _⟩ := next_player_some _ _ _ _ hnp
    obtain ⟨hkeys, hturn, _, _, _, _, _⟩ := remove_player_started st u hst
    exact ⟨hkeys, hturn⟩
  | remove_current_close u hst hcur =>
    exact absurd hs' (by simp [set_default_values])
  | word msg now later fuel st2 hst hchk hnp =>
    obtain ⟨j, p, rfl, _, _⟩ := next_player_some _ _ _ _ hnp
    exact ⟨rfl, rfl⟩
  | explode_advance st1 st2 now fuel hst hex hnp =>
    obtain ⟨j, p, rfl, _, _⟩ := next_player_some _ _ _ _ hnp
    obtain ⟨u, q, _, _, rfl⟩ := on_explode_some st st1 hex
    exact ⟨partyKeys_decLivesOf _ _, rfl⟩
  | explode_close st1 hst hex =>
    exact absurd hs' (by simp [set_default_values])
  | close =>
    exact absurd hs' (by simp [set_default_values])

/-- C8: in every state reachable under the documented lifecycle every
player's lives is non-negative, and from a started state no operation that
keeps the game started removes an entry from the party or the turn order
(mid-game removal only zeroes the player's lives); the operations that do
clear them — the closes — end the game. -/
theorem lifecycle_lives_nonneg (st : BombParty) (h : Reachable st) :
    (∀ e ∈ st.party, 0 ≤ e.2.lives) ∧
    ∀ st', Step st st' → st.started = true → st'.started = true →
      partyKeys st'.party = partyKeys st.party ∧ st'.turn_order = st.turn_order := by
  refine ⟨?_, fun st' hstep hs hs' => step_keeps_structure st st' hstep hs hs'⟩
  intro e he
  exact ((reachable_inv st h).1.2 e he).1

/-- C8 witness: the state after two joins and a start is reachable, and
the conclusion holds there. -/
theorem lifecycle_lives_nonneg_witness :
    Reachable (on_start (add_player (add_player set_default_values ['a']) ['b']) id 0) ∧
    ((∀ e ∈ (on_start (add_player (add_player set_default_values ['a']) ['b']) id 0).party,
        0 ≤ e.2.lives) ∧
      ∀ st', Step (on_start (add_player (add_player set_default_values ['a']) ['b']) id 0) st' →
        (on_start (add_player (add_player set_default_values ['a']) ['b']) id 0).started = true →
        st'.started = true →
        partyKeys st'.party
            = partyKeys (on_start (add_player (add_player set_default_values ['a']) ['b']) id 0).party ∧
          st'.turn_order
            = (on_start (add_player (add_player set_default_values ['a']) ['b']) id 0).turn_order) :=
  have hr : Reachable (on_start (add_player (add_player set_default_values ['a']) ['b']) id 0) :=
    Relation.ReflTransGen.tail
      (Relation.ReflTransGen.tail
        (Relation.ReflTransGen.tail Relation.ReflTransGen.refl
          (Step.add set_default_values ['a'] (by decide)))
        (Step.add (add_player set_default_values ['a']) ['b'] (by decide)))
      (Step.start (add_player (add_player set_default_values ['a']) ['b']) id 0
        (by decide) (by decide) (fun l => List.Perm.refl l))
  ⟨hr, lifecycle_lives_nonneg _ hr⟩

end OfflineChatbot
